import Mathlib

/-!
A verification development for a fixed-capacity open-addressing word table
(`HashMapper` in `oracle.py`).  The table places each word at a slot derived
from its SHA-256 digest, resolving collisions by unit-stride linear probing,
and offers a secondary strided probe that locates a *different* occupied word.

The embedding below translates the Python source directly: SHA-256 is
implemented over `Nat` (bytes and 32-bit words are `Nat` values reduced
modulo `2^8` / `2^32`), Python dicts become association lists with
overwrite-on-update semantics, and the imperative `insert` loop becomes a
fuel-indexed recursion whose fuel matches the `probe >= table_size` guard.
-/

/-! ## SHA-256 over `Nat` -/

/-- Reduce to a 32-bit word, as Python's arithmetic on digest words does implicitly. -/
def w32 (n : Nat) : Nat := n % 4294967296

/-- Bitwise complement on 32-bit words. -/
def wnot (x : Nat) : Nat := 4294967295 - x

/-- Right rotation of a 32-bit word by `n` places. -/
def rotr (n x : Nat) : Nat :=
  w32 (Nat.lor (Nat.shiftRight x n) (Nat.shiftLeft x (32 - n)))

/-- SHA-256 `Ch` function. -/
def shaCh (e f g : Nat) : Nat :=
  Nat.xor (Nat.land e f) (Nat.land (wnot e) g)

/-- SHA-256 `Maj` function. -/
def shaMaj (a b c : Nat) : Nat :=
  Nat.xor (Nat.xor (Nat.land a b) (Nat.land a c)) (Nat.land b c)

/-- SHA-256 big sigma 0. -/
def bigSigma0 (x : Nat) : Nat := Nat.xor (Nat.xor (rotr 2 x) (rotr 13 x)) (rotr 22 x)

/-- SHA-256 big sigma 1. -/
def bigSigma1 (x : Nat) : Nat := Nat.xor (Nat.xor (rotr 6 x) (rotr 11 x)) (rotr 25 x)

/-- SHA-256 small sigma 0. -/
def smallSigma0 (x : Nat) : Nat :=
  Nat.xor (Nat.xor (rotr 7 x) (rotr 18 x)) (Nat.shiftRight x 3)

/-- SHA-256 small sigma 1. -/
def smallSigma1 (x : Nat) : Nat :=
  Nat.xor (Nat.xor (rotr 17 x) (rotr 19 x)) (Nat.shiftRight x 10)

/-- The 64 SHA-256 round constants. -/
def shaK : List Nat :=
  [1116352408, 1899447441, 3049323471, 3921009573,
   961987163, 1508970993, 2453635748, 2870763221,
   3624381080, 310598401, 607225278, 1426881987,
   1925078388, 2162078206, 2614888103, 3248222580,
   3835390401, 4022224774, 264347078, 604807628,
   770255983, 1249150122, 1555081692, 1996064986,
   2554220882, 2821834349, 2952996808, 3210313671,
   3336571891, 3584528711, 113926993, 338241895,
   666307205, 773529912, 1294757372, 1396182291,
   1695183700, 1986661051, 2177026350, 2456956037,
   2730485921, 2820302411, 3259730800, 3345764771,
   3516065817, 3600352804, 4094571909, 275423344,
   430227734, 506948616, 659060556, 883997877,
   958139571, 1322822218, 1537002063, 1747873779,
   1955562222, 2024104815, 2227730452, 2361852424,
   2428436474, 2756734187, 3204031479, 3329325298]

/-- The SHA-256 initial hash value. -/
def shaH0 : List Nat :=
  [1779033703, 3144134277, 1013904242, 2773480762,
   1359893119, 2600822924, 528734635, 1541459225]

/-- Big-endian byte expansion: `beBytes k n` is the `k` low-order bytes of `n`,
most significant first. -/
def beBytes : Nat → Nat → List Nat
  | 0, _ => []
  | k + 1, n => beBytes k (n / 256) ++ [n % 256]

/-- SHA-256 padding: append `0x80`, zero bytes up to 56 mod 64, then the
bit length as an 8-byte big-endian integer. -/
def sha256Pad (msg : List Nat) : List Nat :=
  let L := msg.length
  let zeros := (56 + 64 - (L + 1) % 64) % 64
  msg ++ [128] ++ List.replicate zeros 0 ++ beBytes 8 (L * 8)

/-- Group a byte list into big-endian 32-bit words (discarding a trailing
incomplete group, which never occurs on padded input). -/
def toW32 : List Nat → List Nat
  | a :: b :: c :: d :: rest => (((a * 256 + b) * 256 + c) * 256 + d) :: toW32 rest
  | _ => []

/-- Group a word list into 16-word blocks (discarding a trailing incomplete
group, which never occurs on padded input). -/
def toBlocks : List Nat → List (List Nat)
  | w0 :: w1 :: w2 :: w3 :: w4 :: w5 :: w6 :: w7 ::
    w8 :: w9 :: w10 :: w11 :: w12 :: w13 :: w14 :: w15 :: rest =>
      [w0, w1, w2, w3, w4, w5, w6, w7, w8, w9, w10, w11, w12, w13, w14, w15]
        :: toBlocks rest
  | _ => []

/-- Extend the message schedule; `acc` holds the words produced so far in
reverse order, `n` counts the words still to produce. -/
def scheduleAux : Nat → List Nat → List Nat
  | 0, acc => acc.reverse
  | n + 1, acc =>
    let w := w32 (smallSigma1 (acc.getD 1 0) + acc.getD 6 0 +
                  smallSigma0 (acc.getD 14 0) + acc.getD 15 0)
    scheduleAux n (w :: acc)

/-- The 64-word message schedule of a 16-word block. -/
def schedule (block : List Nat) : List Nat := scheduleAux 48 block.reverse

/-- Run the 64 SHA-256 compression rounds, one per `(K, W)` pair, over the
working state `[a, b, c, d, e, f, g, h]`. -/
def compressRounds (st : List Nat) : List (Nat × Nat) → List Nat
  | [] => st
  | (k, w) :: rest =>
    match st with
    | [a, b, c, d, e, f, g, h] =>
      let t1 := w32 (h + bigSigma1 e + shaCh e f g + k + w)
      let t2 := w32 (bigSigma0 a + shaMaj a b c)
      compressRounds [w32 (t1 + t2), a, b, c, w32 (d + t1), e, f, g] rest
    | _ => st

/-- SHA-256 of a byte list: the eight 32-bit words of the digest. -/
def sha256Words (msg : List Nat) : List Nat :=
  (toBlocks (toW32 (sha256Pad msg))).foldl
    (fun H block =>
      ((H.zip (compressRounds H (shaK.zip (schedule block)))).map
        (fun p => w32 (p.1 + p.2))))
    shaH0

/-- UTF-8 encoding of one code point, as Python's `str.encode` produces. -/
def utf8EncodeCharNat (c : Nat) : List Nat :=
  if c < 128 then [c]
  else if c < 2048 then [192 + c / 64, 128 + c % 64]
  else if c < 65536 then [224 + c / 4096, 128 + (c / 64) % 64, 128 + c % 64]
  else [240 + c / 262144, 128 + (c / 4096) % 64, 128 + (c / 64) % 64, 128 + c % 64]

/-- The UTF-8 bytes of a string. -/
def utf8Bytes (s : String) : List Nat :=
  (s.data.map (fun c => utf8EncodeCharNat c.toNat)).flatten

/-- `int(hashlib.sha256(word.encode("utf-8")).hexdigest(), 16)`: the SHA-256
digest of the word's UTF-8 bytes read as one big-endian 256-bit integer. -/
def sha256Nat (word : String) : Nat :=
  (sha256Words (utf8Bytes word)).foldl (fun acc w => acc * 4294967296 + w) 0

/-! ## Python dicts as association lists -/

/-- Python `d.get(k, None)`. -/
def dictGet {α β : Type} [DecidableEq α] (d : List (α × β)) (k : α) : Option β :=
  match d with
  | [] => none
  | (k1, v) :: rest => if k1 = k then some v else dictGet rest k

/-- Python `d[k] = v`: overwrite the binding of `k` if present, else append. -/
def dictSet {α β : Type} [DecidableEq α] (d : List (α × β)) (k : α) (v : β) :
    List (α × β) :=
  match d with
  | [] => [(k, v)]
  | (k1, v1) :: rest => if k1 = k then (k, v) :: rest else (k1, v1) :: dictSet rest k v

/-! ## The HashMapper data model (`oracle.py`, class `HashMapper`) -/

/-- State of a `HashMapper` object: the fixed table size, the slot array
(`None` = empty slot), and the two dictionaries. -/
structure HashMapper where
  table_size : Nat
  table : List (Option String)
  word_to_index : List (String × Nat)
  index_to_word : List (Nat × String)
deriving DecidableEq, Repr

/-- `HashMapper.__init__`: a table of `table_size` empty slots and empty
dictionaries.  The source performs no validation of `table_size`. -/
def HashMapper.new (table_size : Nat) : HashMapper :=
  { table_size := table_size
    table := List.replicate table_size none
    word_to_index := []
    index_to_word := [] }

/-- `HashMapper._compute_hash`: the digest integer modulo the table size. -/
def HashMapper._compute_hash (m : HashMapper) (word : String) : Nat :=
  sha256Nat word % m.table_size

/-- `HashMapper._compute_step`: `1 + (int_hash // table_size) % (table_size - 1)`. -/
def HashMapper._compute_step (m : HashMapper) (word : String) : Nat :=
  1 + (sha256Nat word / m.table_size) % (m.table_size - 1)

/-- The `while self.table[index] is not None` loop of `HashMapper.insert`:
`probeAux t size original probe fuel` inspects slot `(original + probe) % size`;
if empty it returns that index, otherwise it advances `probe`.  The fuel mirrors
the `probe >= table_size` guard: starting from `probe = 0` with fuel
`size - 1`, the loop inspects exactly the slots at offsets `0 .. size - 1` and
then raises `ValueError` (modelled as `none`). -/
def probeAux (t : List (Option String)) (size original : Nat) :
    Nat → Nat → Option Nat
  | probe, fuel =>
    if t.getD ((original + probe) % size) none = none then
      some ((original + probe) % size)
    else
      match fuel with
      | 0 => none
      | f + 1 => probeAux t size original (probe + 1) f

/-- The index at which `HashMapper.insert` places a fresh word (or `none` for
the `ValueError("Hash table is full!")` case). -/
def probeIndex (t : List (Option String)) (size original : Nat) : Option Nat :=
  probeAux t size original 0 (size - 1)

/-- `HashMapper.insert`.  The returned `HashMapper` is the object state after
the call and the `Bool` is `false` exactly when the Python method raises
`ValueError` (table full); the raise occurs inside the probe loop, before any
of the three writes, so the state returned in that case is the input state. -/
def HashMapper.insert (m : HashMapper) (word : String) : HashMapper × Bool :=
  if (dictGet m.word_to_index word).isSome then (m, true)
  else
    match probeIndex m.table m.table_size (m._compute_hash word) with
    | none => (m, false)
    | some index =>
      ({ m with
          table := m.table.set index (some word)
          word_to_index := dictSet m.word_to_index word index
          index_to_word := dictSet m.index_to_word index word }, true)

/-- `HashMapper.get_index`: `self.word_to_index.get(word, None)`. -/
def HashMapper.get_index (m : HashMapper) (word : String) : Option Nat :=
  dictGet m.word_to_index word

/-- `HashMapper.get_word`: `self.index_to_word.get(index, None)`. -/
def HashMapper.get_word (m : HashMapper) (index : Nat) : Option String :=
  dictGet m.index_to_word index

/-- `HashMapper.insert_words`: insert each word in order.  A raised
`ValueError` propagates (the `Bool` becomes `false`), leaving the object in
the state it had when the failing `insert` was entered. -/
def HashMapper.insert_words (m : HashMapper) : List String → HashMapper × Bool
  | [] => (m, true)
  | w :: ws =>
    match m.insert w with
    | (m2, true) => m2.insert_words ws
    | (m2, false) => (m2, false)

/-! ## The different-word probe (`oracle.py`, `__main__` loop) -/

/-- Result of the different-word probe for one input word. -/
inductive FindResult where
  | found (w : String) (i : Nat)
  | skipped
  | noDifferent
deriving DecidableEq, Repr

/-- The `while True` probe loop of the `__main__` block: from `cursor`, succeed
on the first occupied slot holding a word other than `word`; otherwise stride
by `s` and stop with `noDifferent` when the cursor would return to `start`.
The fuel bounds the recursion; `table_size` units of fuel are enough for the
cursor to complete its cycle (proved below), so the `0` branch is never
reached by `find_different`. -/
def findAux (t : List (Option String)) (size s start : Nat) (word : String) :
    Nat → Nat → FindResult
  | cursor, fuel =>
    match t.getD cursor none with
    | some w =>
      if w = word then
        let c := (cursor + s) % size
        if c = start then .noDifferent
        else
          match fuel with
          | 0 => .noDifferent
          | f + 1 => findAux t size s start word c f
      else .found w cursor
    | none =>
      let c := (cursor + s) % size
      if c = start then .noDifferent
      else
        match fuel with
        | 0 => .noDifferent
        | f + 1 => findAux t size s start word c f

/-- The different-word probe with explicit fuel. -/
def find_differentFuel (m : HashMapper) (word : String) (fuel : Nat) : FindResult :=
  if (dictGet m.word_to_index word).isSome = false then .skipped
  else
    let h := m._compute_hash word
    let s := m._compute_step word
    let start := (h + s) % m.table_size
    findAux m.table m.table_size s start word start fuel

/-- The different-word probe performed by the `__main__` block for each input
word: `skipped` when the word was never inserted, otherwise the strided walk
from `(hash + step) % table_size`. -/
def find_different (m : HashMapper) (word : String) : FindResult :=
  find_differentFuel m word m.table_size

/-! ## Dictionary lemmas -/

theorem dictGet_set_self {α β : Type} [DecidableEq α] (d : List (α × β)) (k : α) (v : β) :
    dictGet (dictSet d k v) k = some v := by
  induction d with
  | nil => simp [dictSet, dictGet]
  | cons p rest ih =>
    obtain ⟨k1, v1⟩ := p
    by_cases h : k1 = k
    · subst h
      simp [dictSet, dictGet]
    · simp [dictSet, dictGet, h, ih]

theorem dictGet_set_ne {α β : Type} [DecidableEq α] (d : List (α × β)) (k k2 : α) (v : β)
    (h : k2 ≠ k) : dictGet (dictSet d k v) k2 = dictGet d k2 := by
  induction d with
  | nil =>
    simp [dictSet, dictGet]
    intro heq
    exact absurd heq.symm h
  | cons p rest ih =>
    obtain ⟨k1, v1⟩ := p
    by_cases h1 : k1 = k
    · subst h1
      have hne : ¬ (k1 = k2) := fun heq => h heq.symm
      simp [dictSet, dictGet, hne]
    · simp only [dictSet, if_neg h1, dictGet]
      by_cases h2 : k1 = k2
      · simp [h2]
      · simp [h2, ih]

theorem mem_keys_dictSet {α β : Type} [DecidableEq α] (d : List (α × β)) (k x : α) (v : β)
    (hx : x ∈ (dictSet d k v).map Prod.fst) : x = k ∨ x ∈ d.map Prod.fst := by
  induction d with
  | nil =>
    simp [dictSet] at hx
    exact Or.inl hx
  | cons p rest ih =>
    obtain ⟨k1, v1⟩ := p
    by_cases h1 : k1 = k
    · subst h1
      simp [dictSet] at hx
      simpa using hx
    · simp only [dictSet, if_neg h1, List.map_cons, List.mem_cons] at hx
      rcases hx with hx | hx
      · exact Or.inr (by simp [hx])
      · rcases ih hx with hx | hx
        · exact Or.inl hx
        · exact Or.inr (by simp [hx])

theorem nodup_keys_dictSet {α β : Type} [DecidableEq α] (d : List (α × β)) (k : α) (v : β)
    (hd : (d.map Prod.fst).Nodup) : ((dictSet d k v).map Prod.fst).Nodup := by
  induction d with
  | nil => simp [dictSet]
  | cons p rest ih =>
    obtain ⟨k1, v1⟩ := p
    simp only [List.map_cons, List.nodup_cons] at hd
    by_cases h1 : k1 = k
    · subst h1
      simpa [dictSet] using hd
    · simp only [dictSet, if_neg h1, List.map_cons, List.nodup_cons]
      refine ⟨fun hmem => ?_, ih hd.2⟩
      rcases mem_keys_dictSet rest k k1 v hmem with h | h
      · exact h1 h
      · exact hd.1 h

/-! ## Linear-probe lemmas -/

theorem probeAux_some (t : List (Option String)) (size original : Nat) :
    ∀ fuel probe j, probeAux t size original probe fuel = some j →
      t.getD j none = none ∧
      ∃ p, probe ≤ p ∧ p ≤ probe + fuel ∧ j = (original + p) % size ∧
        ∀ q, probe ≤ q → q < p → t.getD ((original + q) % size) none ≠ none := by
  intro fuel
  induction fuel with
  | zero =>
    intro probe j h
    rw [probeAux] at h
    by_cases hc : t.getD ((original + probe) % size) none = none
    · rw [if_pos hc] at h
      obtain rfl : (original + probe) % size = j := Option.some.inj h
      exact ⟨hc, probe, le_refl _, Nat.le_add_right _ _, rfl, fun q h1 h2 => by omega⟩
    · rw [if_neg hc] at h
      exact Option.noConfusion h
  | succ f ih =>
    intro probe j h
    rw [probeAux] at h
    by_cases hc : t.getD ((original + probe) % size) none = none
    · rw [if_pos hc] at h
      obtain rfl : (original + probe) % size = j := Option.some.inj h
      exact ⟨hc, probe, le_refl _, Nat.le_add_right _ _, rfl, fun q h1 h2 => by omega⟩
    · rw [if_neg hc] at h
      obtain ⟨hj, p, hp1, hp2, hp3, hp4⟩ := ih (probe + 1) j h
      refine ⟨hj, p, by omega, by omega, hp3, ?_⟩
      intro q h1 h2
      rcases Nat.eq_or_lt_of_le h1 with h1 | h1
      · exact h1 ▸ hc
      · exact hp4 q h1 h2

theorem probeAux_none (t : List (Option String)) (size original : Nat) :
    ∀ fuel probe, probeAux t size original probe fuel = none →
      ∀ p, probe ≤ p → p ≤ probe + fuel → t.getD ((original + p) % size) none ≠ none := by
  intro fuel
  induction fuel with
  | zero =>
    intro probe h p h1 h2
    have hp : p = probe := by omega
    subst hp
    rw [probeAux] at h
    by_cases hc : t.getD ((original + p) % size) none = none
    · rw [if_pos hc] at h
      exact Option.noConfusion h
    · exact hc
  | succ f ih =>
    intro probe h p h1 h2
    rw [probeAux] at h
    by_cases hc : t.getD ((original + probe) % size) none = none
    · rw [if_pos hc] at h
      exact Option.noConfusion h
    · rw [if_neg hc] at h
      rcases Nat.eq_or_lt_of_le h1 with h1 | h1
      · exact h1 ▸ hc
      · exact ih (probe + 1) h p h1 (by omega)

theorem probe_coverage (size original i : Nat) (hsize : 0 < size) (hi : i < size) :
    ∃ p, p < size ∧ (original + p) % size = i := by
  have ho : original % size < size := Nat.mod_lt _ hsize
  refine ⟨(i + size - original % size) % size, Nat.mod_lt _ hsize, ?_⟩
  have h1 : (original + (i + size - original % size) % size) % size
      = (original % size + (i + size - original % size) % size) % size := by
    rw [Nat.mod_add_mod]
  rw [h1, Nat.add_mod_mod, Nat.add_sub_cancel' (by omega : original % size ≤ i + size),
    Nat.add_mod_right, Nat.mod_eq_of_lt hi]

theorem probeIndex_some_of_empty (t : List (Option String)) (size original : Nat)
    (hsize : 0 < size) (i : Nat) (hi : i < size) (hempty : t.getD i none = none) :
    ∃ j, probeIndex t size original = some j := by
  cases hpi : probeIndex t size original with
  | some j => exact ⟨j, rfl⟩
  | none =>
    exfalso
    obtain ⟨p, hp1, hp2⟩ := probe_coverage size original i hsize hi
    exact probeAux_none t size original (size - 1) 0 hpi p (Nat.zero_le _) (by omega)
      (hp2 ▸ hempty)

theorem probeIndex_some_facts (t : List (Option String)) (size original j : Nat)
    (h : probeIndex t size original = some j) :
    t.getD j none = none ∧
      ∃ p, p ≤ size - 1 ∧ j = (original + p) % size ∧
        ∀ q, q < p → t.getD ((original + q) % size) none ≠ none := by
  obtain ⟨hj, p, hp1, hp2, hp3, hp4⟩ := probeAux_some t size original (size - 1) 0 j h
  exact ⟨hj, p, by omega, hp3, fun q hq => hp4 q (Nat.zero_le _) hq⟩

/-! ## Occupied-slot counting -/

/-- The number of occupied slots. -/
def occ (t : List (Option String)) : Nat := t.countP (fun x => x.isSome)

theorem occ_replicate_none (n : Nat) : occ (List.replicate n none) = 0 := by
  induction n with
  | zero => rfl
  | succ k ih => simp [occ, List.replicate_succ, List.countP_cons] at ih ⊢


theorem occ_set_some (t : List (Option String)) (j : Nat) (w : String)
    (hj : t[j]? = some none) : occ (t.set j (some w)) = occ t + 1 := by
  induction t generalizing j with
  | nil => simp at hj
  | cons a rest ih =>
    cases j with
    | zero =>
      simp only [List.getElem?_cons_zero, Option.some_inj] at hj
      subst hj
      simp [occ, List.set, List.countP_cons]
    | succ j1 =>
      simp only [List.getElem?_cons_succ] at hj
      simp only [List.set, occ, List.countP_cons]
      have := ih j1 hj
      simp only [occ] at this
      omega

theorem exists_empty_of_occ_lt (t : List (Option String)) (h : occ t < t.length) :
    ∃ i, i < t.length ∧ t[i]? = some none := by
  have hne : ¬ ∀ x ∈ t, (fun x : Option String => x.isSome) x = true := by
    intro hall
    have := List.countP_eq_length.mpr hall
    simp only [occ] at h
    omega
  push_neg at hne
  obtain ⟨x, hx, hxs⟩ := hne
  have hx0 : x = none := by
    cases x with
    | none => rfl
    | some w => simp at hxs
  subst hx0
  obtain ⟨i, hi, hget⟩ := List.getElem_of_mem hx
  exact ⟨i, hi, by rw [List.getElem?_eq_getElem hi, hget]⟩

/-! ## Insert unfolding lemmas -/

theorem insert_of_present (m : HashMapper) (w : String)
    (h : (dictGet m.word_to_index w).isSome = true) : m.insert w = (m, true) := by
  simp [HashMapper.insert, h]

theorem insert_of_probe_none (m : HashMapper) (w : String)
    (h1 : ¬ (dictGet m.word_to_index w).isSome = true)
    (h2 : probeIndex m.table m.table_size (m._compute_hash w) = none) :
    m.insert w = (m, false) := by
  simp [HashMapper.insert, h1, h2]

theorem insert_of_probe_some (m : HashMapper) (w : String) (j : Nat)
    (h1 : ¬ (dictGet m.word_to_index w).isSome = true)
    (h2 : probeIndex m.table m.table_size (m._compute_hash w) = some j) :
    m.insert w = (⟨m.table_size, m.table.set j (some w),
      dictSet m.word_to_index w j, dictSet m.index_to_word j w⟩, true) := by
  simp [HashMapper.insert, h1, h2]

/-! ## The representation invariant and reachability -/

/-- The representation invariant of a mapper state: the slot array has the
configured length, both dictionaries agree with the slot array, and the
forward dictionary has no duplicate keys. -/
structure MapperInv (m : HashMapper) : Prop where
  size_pos : 0 < m.table_size
  len_eq : m.table.length = m.table_size
  wi_iff : ∀ k i, dictGet m.word_to_index k = some i ↔ m.table[i]? = some (some k)
  iw_iff : ∀ i k, dictGet m.index_to_word i = some k ↔ m.table[i]? = some (some k)
  keys_nodup : (m.word_to_index.map Prod.fst).Nodup

theorem inv_new (n : Nat) (hn : 0 < n) : MapperInv (HashMapper.new n) := by
  refine ⟨hn, by simp [HashMapper.new], ?_, ?_, by simp [HashMapper.new]⟩
  · intro k i
    simp only [HashMapper.new, dictGet, List.getElem?_replicate]
    constructor
    · intro h
      exact Option.noConfusion h
    · intro h
      split at h
      · exact Option.noConfusion (Option.some.inj h)
      · exact Option.noConfusion h
  · intro i k
    simp only [HashMapper.new, dictGet, List.getElem?_replicate]
    constructor
    · intro h
      exact Option.noConfusion h
    · intro h
      split at h
      · exact Option.noConfusion (Option.some.inj h)
      · exact Option.noConfusion h

theorem inv_insert (m : HashMapper) (w : String) (hInv : MapperInv m) : MapperInv (m.insert w).1 := by
  by_cases hp : (dictGet m.word_to_index w).isSome = true
  · rw [insert_of_present m w hp]
    exact hInv
  · have hfresh : dictGet m.word_to_index w = none := by
      cases hg : dictGet m.word_to_index w with
      | none => rfl
      | some v => rw [hg] at hp; simp at hp
    cases hpi : probeIndex m.table m.table_size (m._compute_hash w) with
    | none =>
      rw [insert_of_probe_none m w hp hpi]
      exact hInv
    | some j =>
      rw [insert_of_probe_some m w j hp hpi]
      obtain ⟨hempty, p, hple, hpj, hfirst⟩ := probeIndex_some_facts _ _ _ _ hpi
      have hjlt : j < m.table_size := by
        rw [hpj]
        exact Nat.mod_lt _ hInv.size_pos
      have hjlen : j < m.table.length := by
        rw [hInv.len_eq]
        exact hjlt
      have hjnone : m.table[j]? = some none := by
        rw [List.getD_eq_getElem?_getD] at hempty
        cases hje : m.table[j]? with
        | none =>
          rw [List.getElem?_eq_none_iff] at hje
          omega
        | some x =>
          rw [hje] at hempty
          simp only [Option.getD_some] at hempty
          rw [hempty]
      refine ⟨hInv.size_pos, by simpa using hInv.len_eq, ?_, ?_, ?_⟩
      · intro k i
        simp only
        by_cases hk : k = w
        · subst hk
          rw [dictGet_set_self]
          constructor
          · intro h
            obtain rfl : j = i := Option.some.inj h
            rw [List.getElem?_set_self hjlen]
          · intro h
            by_cases hij : i = j
            · subst hij
              rfl
            · rw [List.getElem?_set_ne (fun hh => hij hh.symm)] at h
              exfalso
              have hcontra := (hInv.wi_iff _ _).mpr h
              rw [hfresh] at hcontra
              exact Option.noConfusion hcontra
        · rw [dictGet_set_ne _ _ _ _ hk]
          by_cases hij : i = j
          · subst hij
            rw [List.getElem?_set_self hjlen]
            constructor
            · intro h
              exfalso
              have hcontra := (hInv.wi_iff k i).mp h
              rw [hjnone] at hcontra
              exact Option.noConfusion (Option.some.inj hcontra)
            · intro h
              exact absurd (Option.some.inj (Option.some.inj h)).symm hk
          · rw [List.getElem?_set_ne (fun hh => hij hh.symm)]
            exact hInv.wi_iff k i
      · intro i k
        simp only
        by_cases hij : i = j
        · subst hij
          rw [dictGet_set_self, List.getElem?_set_self hjlen]
          constructor
          · intro h
            rw [Option.some.inj h]
          · intro h
            rw [(Option.some.inj (Option.some.inj h))]
        · rw [dictGet_set_ne _ _ _ _ hij, List.getElem?_set_ne (fun hh => hij hh.symm)]
          exact hInv.iw_iff i k
      · exact nodup_keys_dictSet _ _ _ hInv.keys_nodup

/-- A mapper state reachable from construction (under the spec's configuration
requirement `capacity ≥ 2`) by any sequence of insertions. -/
inductive Reachable : HashMapper → Prop where
  | new : ∀ n, 2 ≤ n → Reachable (HashMapper.new n)
  | step : ∀ m w, Reachable m → Reachable ((m.insert w).1)

theorem inv_of_reachable (m : HashMapper) (h : Reachable m) : MapperInv m := by
  induction h with
  | new n hn => exact inv_new n (by omega)
  | step m w _ ih => exact inv_insert m w ih

/-! ## Insert: preservation and success/failure conditions -/

theorem getD_none_getElem? (t : List (Option String)) (j : Nat) (hj : j < t.length)
    (h : t.getD j none = none) : t[j]? = some none := by
  rw [List.getD_eq_getElem?_getD] at h
  cases hje : t[j]? with
  | none =>
    rw [List.getElem?_eq_none_iff] at hje
    omega
  | some x =>
    rw [hje] at h
    simp only [Option.getD_some] at h
    rw [h]

theorem insert_table_size (m : HashMapper) (w : String) :
    ((m.insert w).1).table_size = m.table_size := by
  by_cases hp : (dictGet m.word_to_index w).isSome = true
  · rw [insert_of_present m w hp]
  · cases hpi : probeIndex m.table m.table_size (m._compute_hash w) with
    | none => rw [insert_of_probe_none m w hp hpi]
    | some j => rw [insert_of_probe_some m w j hp hpi]

theorem insert_get_index_ne (m : HashMapper) (w k : String) (hk : k ≠ w) :
    ((m.insert w).1).get_index k = m.get_index k := by
  by_cases hp : (dictGet m.word_to_index w).isSome = true
  · rw [insert_of_present m w hp]
  · cases hpi : probeIndex m.table m.table_size (m._compute_hash w) with
    | none => rw [insert_of_probe_none m w hp hpi]
    | some j =>
      rw [insert_of_probe_some m w j hp hpi]
      exact dictGet_set_ne _ _ _ _ hk

theorem insert_present_after (m : HashMapper) (w : String)
    (h2 : (m.insert w).2 = true) : (((m.insert w).1).get_index w).isSome = true := by
  by_cases hp : (dictGet m.word_to_index w).isSome = true
  · rw [insert_of_present m w hp]
    exact hp
  · cases hpi : probeIndex m.table m.table_size (m._compute_hash w) with
    | none =>
      rw [insert_of_probe_none m w hp hpi] at h2
      exact Bool.noConfusion h2
    | some j =>
      rw [insert_of_probe_some m w j hp hpi]
      simp only [HashMapper.get_index, dictGet_set_self, Option.isSome_some]

theorem insert_preserves_present (m : HashMapper) (w k : String)
    (h : (m.get_index k).isSome = true) :
    (((m.insert w).1).get_index k).isSome = true := by
  by_cases hk : k = w
  · subst hk
    rw [insert_of_present m k h]
    exact h
  · rw [insert_get_index_ne m w k hk]
    exact h

theorem insert_words_preserves_present :
    ∀ (ws : List String) (m : HashMapper) (k : String),
      (m.get_index k).isSome = true →
      (((m.insert_words ws).1).get_index k).isSome = true := by
  intro ws
  induction ws with
  | nil => intro m k h; exact h
  | cons w ws ih =>
    intro m k h
    cases hiw : m.insert w with
    | mk m1 b =>
      have h1 : (m1.get_index k).isSome = true := by
        have := insert_preserves_present m w k h
        rw [hiw] at this
        exact this
      cases b with
      | true => simpa [HashMapper.insert_words, hiw] using ih m1 k h1
      | false => simpa [HashMapper.insert_words, hiw] using h1

theorem insert_words_success_present :
    ∀ (ws : List String) (m m2 : HashMapper), m.insert_words ws = (m2, true) →
      ∀ k, k ∈ ws → (m2.get_index k).isSome = true := by
  intro ws
  induction ws with
  | nil =>
    intro m m2 h k hk
    exact absurd hk (List.not_mem_nil k)
  | cons w ws ih =>
    intro m m2 h k hk
    cases hiw : m.insert w with
    | mk m1 b =>
      cases b with
      | false =>
        simp only [HashMapper.insert_words, hiw, Prod.mk.injEq] at h
        exact Bool.noConfusion h.2
      | true =>
        simp only [HashMapper.insert_words, hiw] at h
        rcases List.mem_cons.mp hk with hk | hk
        · subst hk
          have h1 : (m1.get_index k).isSome = true := by
            have := insert_present_after m k (by rw [hiw])
            rw [hiw] at this
            exact this
          have := insert_words_preserves_present ws m1 k h1
          rw [h] at this
          exact this
        · exact ih m1 m2 h k hk

theorem insert_words_get_index_notmem :
    ∀ (ws : List String) (m : HashMapper) (k : String), k ∉ ws →
      ((m.insert_words ws).1).get_index k = m.get_index k := by
  intro ws
  induction ws with
  | nil => intro m k _; rfl
  | cons w ws ih =>
    intro m k hk
    have hkw : k ≠ w := fun h => hk (h ▸ List.mem_cons_self w ws)
    have hkws : k ∉ ws := fun h => hk (List.mem_cons_of_mem w h)
    cases hiw : m.insert w with
    | mk m1 b =>
      have h1 : m1.get_index k = m.get_index k := by
        have := insert_get_index_ne m w k hkw
        rw [hiw] at this
        exact this
      cases b with
      | true =>
        simp only [HashMapper.insert_words, hiw]
        rw [ih m1 k hkws]
        exact h1
      | false => simpa [HashMapper.insert_words, hiw] using h1

theorem insert_fresh_success (m : HashMapper) (w : String) (hInv : MapperInv m)
    (hfresh : dictGet m.word_to_index w = none) (hocc : occ m.table < m.table_size) :
    (m.insert w).2 = true ∧ occ ((m.insert w).1).table = occ m.table + 1 := by
  have hp : ¬ (dictGet m.word_to_index w).isSome = true := by
    rw [hfresh]
    simp
  have hlt : occ m.table < m.table.length := by
    rw [hInv.len_eq]
    exact hocc
  obtain ⟨i, hi, hempty⟩ := exists_empty_of_occ_lt _ hlt
  have hemptyD : m.table.getD i none = none := by
    rw [List.getD_eq_getElem?_getD, hempty]
    rfl
  obtain ⟨j, hj⟩ := probeIndex_some_of_empty m.table m.table_size (m._compute_hash w)
    hInv.size_pos i (hInv.len_eq ▸ hi) hemptyD
  rw [insert_of_probe_some m w j hp hj]
  refine ⟨rfl, ?_⟩
  obtain ⟨hempty2, p, _, hpj, _⟩ := probeIndex_some_facts _ _ _ _ hj
  have hjlt : j < m.table.length := by
    rw [hInv.len_eq, hpj]
    exact Nat.mod_lt _ hInv.size_pos
  exact occ_set_some _ _ _ (getD_none_getElem? _ _ hjlt hempty2)

theorem insert_fail_of_full (m : HashMapper) (w : String) (hsize : 0 < m.table_size)
    (hlen : m.table.length = m.table_size)
    (hfresh : dictGet m.word_to_index w = none)
    (hfull : ∀ x ∈ m.table, x.isSome = true) : m.insert w = (m, false) := by
  have hp : ¬ (dictGet m.word_to_index w).isSome = true := by
    rw [hfresh]
    simp
  cases hpi : probeIndex m.table m.table_size (m._compute_hash w) with
  | none => exact insert_of_probe_none m w hp hpi
  | some j =>
    exfalso
    obtain ⟨hempty, p, _, hpj, _⟩ := probeIndex_some_facts _ _ _ _ hpi
    have hjlt : j < m.table.length := by
      rw [hlen, hpj]
      exact Nat.mod_lt _ hsize
    have hj? : m.table[j]? = some none := getD_none_getElem? _ _ hjlt hempty
    have hmem : (none : Option String) ∈ m.table := List.getElem?_mem hj?
    have := hfull none hmem
    simp at this

theorem insert_fail_iff_full (m : HashMapper) (w : String) (hInv : MapperInv m)
    (hfresh : dictGet m.word_to_index w = none) :
    (m.insert w).2 = false ↔ ∀ x ∈ m.table, x.isSome = true := by
  constructor
  · intro h
    by_contra hnf
    have hocc : occ m.table < m.table_size := by
      have hle : occ m.table ≤ m.table.length := List.countP_le_length _
      have hne : occ m.table ≠ m.table.length := by
        intro heq
        exact hnf (List.countP_eq_length.mp heq)
      rw [← hInv.len_eq]
      omega
    obtain ⟨hsucc, _⟩ := insert_fresh_success m w hInv hfresh hocc
    rw [h] at hsucc
    exact Bool.noConfusion hsucc
  · intro h
    rw [insert_fail_of_full m w hInv.size_pos hInv.len_eq hfresh h]

theorem insert_words_fill :
    ∀ (ws : List String) (m : HashMapper), MapperInv m → ws.Nodup →
      (∀ k ∈ ws, m.get_index k = none) →
      occ m.table + ws.length ≤ m.table_size →
      ∃ m2, m.insert_words ws = (m2, true) ∧ MapperInv m2 ∧
        occ m2.table = occ m.table + ws.length ∧ m2.table_size = m.table_size := by
  intro ws
  induction ws with
  | nil =>
    intro m hInv _ _ _
    exact ⟨m, rfl, hInv, by simp, rfl⟩
  | cons w ws ih =>
    intro m hInv hnodup hfresh hocc
    have hfw : m.get_index w = none := hfresh w (List.mem_cons_self w ws)
    have hoccw : occ m.table < m.table_size := by
      simp only [List.length_cons] at hocc
      omega
    obtain ⟨hsucc, hocc1⟩ := insert_fresh_success m w hInv hfw hoccw
    cases hiw : m.insert w with
    | mk m1 b =>
      rw [hiw] at hsucc hocc1
      subst hsucc
      have hocc1a : occ m1.table = occ m.table + 1 := by simpa using hocc1
      have hInv1 : MapperInv m1 := by
        have := inv_insert m w hInv
        rw [hiw] at this
        exact this
      have hsize1 : m1.table_size = m.table_size := by
        have := insert_table_size m w
        rw [hiw] at this
        exact this
      have hfresh1 : ∀ k ∈ ws, m1.get_index k = none := by
        intro k hk
        have hkw : k ≠ w := by
          intro heq
          subst heq
          exact (List.nodup_cons.mp hnodup).1 hk
        have := insert_get_index_ne m w k hkw
        rw [hiw] at this
        rw [this]
        exact hfresh k (List.mem_cons_of_mem w hk)
      have hocc2 : occ m1.table + ws.length ≤ m1.table_size := by
        simp only [List.length_cons] at hocc
        rw [hsize1, hocc1a]
        omega
      obtain ⟨m2, hrun, hInv2, hocc3, hsize2⟩ := ih m1 hInv1
        (List.nodup_cons.mp hnodup).2 hfresh1 hocc2
      refine ⟨m2, ?_, hInv2, ?_, ?_⟩
      · simp only [HashMapper.insert_words, hiw]
        exact hrun
      · simp only [List.length_cons]
        omega
      · omega

/-! ## Different-word probe analysis -/

/-- A slot that cannot satisfy the different-word probe: empty, or holding the
query word itself. -/
def dull (t : List (Option String)) (word : String) (i : Nat) : Prop :=
  t.getD i none = none ∨ t.getD i none = some word

instance (t : List (Option String)) (word : String) (i : Nat) : Decidable (dull t word i) := by
  unfold dull
  infer_instance


theorem findAux_dull (t : List (Option String)) (size s start : Nat) (word : String)
    (cursor fuel : Nat) (hdull : dull t word cursor) :
    findAux t size s start word cursor fuel =
      (if (cursor + s) % size = start then FindResult.noDifferent
       else match fuel with
         | 0 => FindResult.noDifferent
         | f + 1 => findAux t size s start word ((cursor + s) % size) f) := by
  rcases hdull with hd | hd
  · rw [findAux, hd]
  · rw [findAux, hd]
    simp

theorem findAux_found (t : List (Option String)) (size s start : Nat) (word : String)
    (cursor fuel : Nat) (w2 : String) (hslot : t.getD cursor none = some w2)
    (hw2 : w2 ≠ word) :
    findAux t size s start word cursor fuel = FindResult.found w2 cursor := by
  rw [findAux, hslot]
  simp [hw2]

/-- Complete evaluation of the probe loop, by induction on the number `k` of
strides needed to come back to `start`: if every slot on the walk before the
return is dull the loop reports `noDifferent`, and the first non-dull slot on
the walk is reported as `found`. -/
theorem findAux_eval (t : List (Option String)) (size s start : Nat) (word : String)
    (hsize : 0 < size) :
    ∀ k cursor fuel, cursor < size → 1 ≤ k →
      (cursor + k * s) % size = start →
      (∀ j, 1 ≤ j → j < k → (cursor + j * s) % size ≠ start) →
      k ≤ fuel + 1 →
      ((∀ r, r < k → dull t word ((cursor + r * s) % size)) →
        findAux t size s start word cursor fuel = FindResult.noDifferent) ∧
      (∀ r w2, r < k →
        (∀ q, q < r → dull t word ((cursor + q * s) % size)) →
        t.getD ((cursor + r * s) % size) none = some w2 → w2 ≠ word →
        findAux t size s start word cursor fuel = FindResult.found w2 ((cursor + r * s) % size)) := by
  intro k
  induction k with
  | zero =>
    intro cursor fuel _ h1
    omega
  | succ k ih =>
    intro cursor fuel hcur hk hret hmin hfuel
    have hc0 : (cursor + 0 * s) % size = cursor := by
      simp [Nat.mod_eq_of_lt hcur]
    have harith : ∀ r, ((cursor + s) % size + r * s) % size = (cursor + (r + 1) * s) % size := by
      intro r
      rw [Nat.mod_add_mod]
      congr 1
      ring
    by_cases hdull : dull t word cursor
    · -- the slot at `cursor` cannot satisfy the probe: the loop strides on
      cases k with
      | zero =>
        have hc1 : (cursor + s) % size = start := by
          simpa using hret
        constructor
        · intro _
          rw [findAux_dull t size s start word cursor fuel hdull, if_pos hc1]
        · intro r w2 hr hbelow hslot hw2
          exfalso
          have hr0 : r = 0 := by omega
          subst hr0
          rw [hc0] at hslot
          rcases hdull with hd | hd
          · rw [hd] at hslot
            exact Option.noConfusion hslot
          · rw [hd] at hslot
            exact hw2 (Option.some.inj hslot).symm
      | succ k2 =>
        have hcne : (cursor + s) % size ≠ start := by
          have h1 := hmin 1 (le_refl 1) (by omega)
          simpa using h1
        cases fuel with
        | zero => omega
        | succ f =>
          have hstep : findAux t size s start word cursor (f + 1) =
              findAux t size s start word ((cursor + s) % size) f := by
            rw [findAux_dull t size s start word cursor (f + 1) hdull, if_neg hcne]
          have hcur2 : (cursor + s) % size < size := Nat.mod_lt _ hsize
          have hret2 : ((cursor + s) % size + (k2 + 1) * s) % size = start := by
            rw [harith]
            exact hret
          have hmin2 : ∀ j, 1 ≤ j → j < k2 + 1 →
              ((cursor + s) % size + j * s) % size ≠ start := by
            intro j hj1 hj2
            rw [harith]
            exact hmin (j + 1) (by omega) (by omega)
          obtain ⟨ihA, ihB⟩ := ih ((cursor + s) % size) f hcur2 (by omega) hret2 hmin2 (by omega)
          constructor
          · intro hall
            rw [hstep]
            exact ihA (fun r hr => by
              rw [harith]
              exact hall (r + 1) (by omega))
          · intro r w2 hr hbelow hslot hw2
            cases r with
            | zero =>
              exfalso
              rw [hc0] at hslot
              rcases hdull with hd | hd
              · rw [hd] at hslot
                exact Option.noConfusion hslot
              · rw [hd] at hslot
                exact hw2 (Option.some.inj hslot).symm
            | succ r2 =>
              have hbelow2 : ∀ q, q < r2 → dull t word (((cursor + s) % size + q * s) % size) := by
                intro q hq
                rw [harith]
                exact hbelow (q + 1) (by omega)
              have hslot2 : t.getD (((cursor + s) % size + r2 * s) % size) none = some w2 := by
                rw [harith]
                exact hslot
              have hres := ihB r2 w2 (by omega) hbelow2 hslot2 hw2
              rw [hstep]
              rw [harith] at hres
              exact hres
    · -- the slot at `cursor` holds a different word: immediate success
      cases hslot : t.getD cursor none with
      | none => exact absurd (Or.inl hslot) hdull
      | some w2 =>
        have hw2 : w2 ≠ word := fun heq => hdull (Or.inr (by rw [hslot, heq]))
        have hfound : findAux t size s start word cursor fuel = FindResult.found w2 cursor :=
          findAux_found t size s start word cursor fuel w2 hslot hw2
        constructor
        · intro hall
          exfalso
          have hd0 := hall 0 (by omega)
          rw [hc0] at hd0
          rcases hd0 with hd | hd
          · rw [hslot] at hd
            exact Option.noConfusion hd
          · rw [hslot] at hd
            exact hw2 (Option.some.inj hd)
        · intro r w2a hr hbelow hslota hw2a
          cases r with
          | zero =>
            rw [hc0] at hslota
            rw [hslot] at hslota
            obtain rfl : w2 = w2a := Option.some.inj hslota
            rw [hfound, hc0]
          | succ r2 =>
            exfalso
            have hd0 := hbelow 0 (by omega)
            rw [hc0] at hd0
            rcases hd0 with hd | hd
            · rw [hslot] at hd
              exact Option.noConfusion hd
            · rw [hslot] at hd
              exact hw2 (Option.some.inj hd)

/-- The strided cursor returns to its start within `size` steps. -/
theorem cycle_exists (size s start : Nat) (hsize : 0 < size) (hstart : start < size) :
    ∃ tt, 1 ≤ tt ∧ tt ≤ size ∧ (start + tt * s) % size = start := by
  have hg : 0 < Nat.gcd s size := Nat.gcd_pos_of_pos_right _ hsize
  have hgle : Nat.gcd s size ≤ size := Nat.le_of_dvd hsize (Nat.gcd_dvd_right s size)
  refine ⟨size / Nat.gcd s size, Nat.div_pos hgle hg, Nat.div_le_self _ _, ?_⟩
  have hdvd : size ∣ size / Nat.gcd s size * s := by
    obtain ⟨s1, hs1⟩ := Nat.gcd_dvd_left s size
    obtain ⟨z, hz⟩ := Nat.gcd_dvd_right s size
    refine ⟨s1, ?_⟩
    calc size / Nat.gcd s size * s
        = size / Nat.gcd s size * (Nat.gcd s size * s1) := by rw [← hs1]
      _ = Nat.gcd s size * (size / Nat.gcd s size) * s1 := by ring
      _ = size * s1 := by
          rw [Nat.mul_div_cancel' (Nat.gcd_dvd_right s size)]
  obtain ⟨c, hc⟩ := hdvd
  rw [hc, Nat.add_mul_mod_self_left, Nat.mod_eq_of_lt hstart]

/-- The strided walk is periodic: positions repeat modulo the cycle length. -/
theorem stride_period (size s start K : Nat) (hstart : start < size)
    (hK : (start + K * s) % size = start) (q : Nat) :
    (start + q * s) % size = (start + q % K * s) % size := by
  have hdvd : size ∣ K * s := by
    have h1 : Nat.ModEq size (start + K * s) start := by
      unfold Nat.ModEq
      rw [hK, Nat.mod_eq_of_lt hstart]
    have h2 := (Nat.modEq_iff_dvd' (Nat.le_add_right start (K * s))).mp h1.symm
    simpa using h2
  obtain ⟨c, hc⟩ := hdvd
  have hq : start + q * s = start + q % K * s + q / K * (K * s) := by
    conv_lhs => rw [← Nat.div_add_mod q K]
    ring
  rw [hq, hc, show q / K * (size * c) = size * (q / K * c) by ring,
    Nat.add_mul_mod_self_left]

/-- Analysis of a full probe run from `start` with sufficient fuel: a `found`
result names the first non-dull slot on the strided walk, and a `noDifferent`
result means every slot on the walk (at any number of strides) is dull. -/
theorem findAux_start_cases (t : List (Option String)) (size s start : Nat) (word : String)
    (hsize : 0 < size) (hstart : start < size) (fuel : Nat) (hfuel : size ≤ fuel + 1) :
    (∀ w2 j, findAux t size s start word start fuel = FindResult.found w2 j →
      t.getD j none = some w2 ∧ w2 ≠ word ∧
      ∃ r, j = (start + r * s) % size ∧ ∀ q, q < r → dull t word ((start + q * s) % size)) ∧
    (findAux t size s start word start fuel = FindResult.noDifferent →
      ∀ q, dull t word ((start + q * s) % size)) := by
  obtain ⟨t0, ht01, ht02, ht03⟩ := cycle_exists size s start hsize hstart
  have hex : ∃ tt, 1 ≤ tt ∧ (start + tt * s) % size = start := ⟨t0, ht01, ht03⟩
  have hKspec := Nat.find_spec hex
  have hKle : Nat.find hex ≤ t0 := Nat.find_min' hex ⟨ht01, ht03⟩
  have hmin : ∀ j, 1 ≤ j → j < Nat.find hex → (start + j * s) % size ≠ start := by
    intro j hj1 hj2 heq
    exact Nat.find_min hex hj2 ⟨hj1, heq⟩
  obtain ⟨hA, hB⟩ := findAux_eval t size s start word hsize (Nat.find hex) start fuel
    hstart hKspec.1 hKspec.2 hmin (by omega)
  by_cases hall : ∀ r, r < Nat.find hex → dull t word ((start + r * s) % size)
  · constructor
    · intro w2 j h
      rw [hA hall] at h
      exact FindResult.noConfusion h
    · intro _ q
      have hper := stride_period size s start (Nat.find hex) hstart hKspec.2 q
      rw [hper]
      exact hall (q % Nat.find hex) (Nat.mod_lt _ (by omega))
  · have hex2 : ∃ r, r < Nat.find hex ∧ ¬ dull t word ((start + r * s) % size) := by
      push_neg at hall
      exact hall
    have hRspec := Nat.find_spec hex2
    have hRmin : ∀ q, q < Nat.find hex2 → dull t word ((start + q * s) % size) := by
      intro q hq
      by_contra hnd
      exact Nat.find_min hex2 hq ⟨by omega, hnd⟩
    cases hslot : t.getD ((start + Nat.find hex2 * s) % size) none with
    | none => exact absurd (Or.inl hslot) hRspec.2
    | some w2 =>
      have hw2 : w2 ≠ word := fun heq => hRspec.2 (Or.inr (by rw [hslot, heq]))
      have hres := hB (Nat.find hex2) w2 hRspec.1 hRmin hslot hw2
      constructor
      · intro w2a ja h
        rw [hres] at h
        obtain ⟨h1, h2⟩ : w2 = w2a ∧ (start + Nat.find hex2 * s) % size = ja := by
          cases h
          exact ⟨rfl, rfl⟩
        subst h1
        subst h2
        exact ⟨hslot, hw2, Nat.find hex2, rfl, hRmin⟩
      · intro h
        rw [hres] at h
        exact FindResult.noConfusion h

/-- With at least `size - 1` units of fuel the probe result no longer depends
on the fuel: the loop finishes (one way or the other) within `size` strides. -/
theorem findAux_fuel_indep (t : List (Option String)) (size s start : Nat) (word : String)
    (hsize : 0 < size) (hstart : start < size) (fuel1 fuel2 : Nat)
    (h1 : size ≤ fuel1 + 1) (h2 : size ≤ fuel2 + 1) :
    findAux t size s start word start fuel1 = findAux t size s start word start fuel2 := by
  obtain ⟨t0, ht01, ht02, ht03⟩ := cycle_exists size s start hsize hstart
  have hex : ∃ tt, 1 ≤ tt ∧ (start + tt * s) % size = start := ⟨t0, ht01, ht03⟩
  have hKspec := Nat.find_spec hex
  have hKle : Nat.find hex ≤ t0 := Nat.find_min' hex ⟨ht01, ht03⟩
  have hmin : ∀ j, 1 ≤ j → j < Nat.find hex → (start + j * s) % size ≠ start := by
    intro j hj1 hj2 heq
    exact Nat.find_min hex hj2 ⟨hj1, heq⟩
  obtain ⟨hA1, hB1⟩ := findAux_eval t size s start word hsize (Nat.find hex) start fuel1
    hstart hKspec.1 hKspec.2 hmin (by omega)
  obtain ⟨hA2, hB2⟩ := findAux_eval t size s start word hsize (Nat.find hex) start fuel2
    hstart hKspec.1 hKspec.2 hmin (by omega)
  by_cases hall : ∀ r, r < Nat.find hex → dull t word ((start + r * s) % size)
  · rw [hA1 hall, hA2 hall]
  · have hex2 : ∃ r, r < Nat.find hex ∧ ¬ dull t word ((start + r * s) % size) := by
      push_neg at hall
      exact hall
    have hRspec := Nat.find_spec hex2
    have hRmin : ∀ q, q < Nat.find hex2 → dull t word ((start + q * s) % size) := by
      intro q hq
      by_contra hnd
      exact Nat.find_min hex2 hq ⟨by omega, hnd⟩
    cases hslot : t.getD ((start + Nat.find hex2 * s) % size) none with
    | none => exact absurd (Or.inl hslot) hRspec.2
    | some w2 =>
      have hw2 : w2 ≠ word := fun heq => hRspec.2 (Or.inr (by rw [hslot, heq]))
      rw [hB1 (Nat.find hex2) w2 hRspec.1 hRmin hslot hw2,
        hB2 (Nat.find hex2) w2 hRspec.1 hRmin hslot hw2]

theorem find_different_skipped (m : HashMapper) (word : String)
    (h : dictGet m.word_to_index word = none) :
    find_different m word = FindResult.skipped := by
  simp [find_different, find_differentFuel, h]

theorem find_differentFuel_present (m : HashMapper) (word : String) (fuel : Nat)
    (h : (dictGet m.word_to_index word).isSome = true) :
    find_differentFuel m word fuel =
      findAux m.table m.table_size (m._compute_step word)
        ((m._compute_hash word + m._compute_step word) % m.table_size) word
        ((m._compute_hash word + m._compute_step word) % m.table_size) fuel := by
  simp [find_differentFuel, h]

/-! ## Remaining helper lemmas -/

theorem insert_fail_state (m : HashMapper) (w : String) (h : (m.insert w).2 = false) :
    (m.insert w).1 = m := by
  by_cases hp : (dictGet m.word_to_index w).isSome = true
  · rw [insert_of_present m w hp] at h
    exact Bool.noConfusion h
  · cases hpi : probeIndex m.table m.table_size (m._compute_hash w) with
    | none => rw [insert_of_probe_none m w hp hpi]
    | some j =>
      rw [insert_of_probe_some m w j hp hpi] at h
      exact Bool.noConfusion h

theorem insert_words_fail_decomp :
    ∀ (ws : List String) (m m2 : HashMapper), m.insert_words ws = (m2, false) →
      ∃ pre w2 post, ws = pre ++ w2 :: post ∧
        m.insert_words pre = (m2, true) ∧ m2.insert w2 = (m2, false) ∧
        ∀ k, k ∈ pre → (m2.get_index k).isSome = true := by
  intro ws
  induction ws with
  | nil =>
    intro m m2 h
    simp only [HashMapper.insert_words, Prod.mk.injEq] at h
    exact absurd h.2 (by simp)
  | cons w ws ih =>
    intro m m2 h
    cases hiw : m.insert w with
    | mk m1 b =>
      cases b with
      | false =>
        simp only [HashMapper.insert_words, hiw, Prod.mk.injEq] at h
        obtain ⟨heq, -⟩ := h
        subst heq
        have h1 : m1 = m := by
          have h2 := insert_fail_state m w (by rw [hiw])
          rw [hiw] at h2
          exact h2
        subst h1
        exact ⟨[], w, ws, rfl, rfl, hiw, fun k hk => absurd hk (List.not_mem_nil k)⟩
      | true =>
        simp only [HashMapper.insert_words, hiw] at h
        obtain ⟨pre, w2, post, hsplit, hpre, hfail, hmem⟩ := ih m1 m2 h
        refine ⟨w :: pre, w2, post, by rw [hsplit, List.cons_append], ?_, hfail, ?_⟩
        · simp only [HashMapper.insert_words, hiw]
          exact hpre
        · intro k hk
          rcases List.mem_cons.mp hk with hk | hk
          · subst hk
            have h1 : (m1.get_index k).isSome = true := by
              have := insert_present_after m k (by rw [hiw])
              rw [hiw] at this
              exact this
            have := insert_words_preserves_present pre m1 k h1
            rw [hpre] at this
            exact this
          · exact hmem k hk

/-! ## The claims -/

/-- C6: for every key string and capacity at least 2, with `H` the key's
SHA-256 digest as an integer, `_compute_hash` is `H mod capacity` and
`_compute_step` is `1 + (H div capacity) mod (capacity - 1)`, which always
lies in `[1, capacity - 1]`; both depend only on the key text and the
capacity, not on the table contents. -/
theorem claim_C6 (m m2 : HashMapper) (word : String) (hcap : 2 ≤ m.table_size)
    (hsame : m2.table_size = m.table_size) :
    m._compute_hash word = sha256Nat word % m.table_size ∧
    m._compute_step word = 1 + (sha256Nat word / m.table_size) % (m.table_size - 1) ∧
    1 ≤ m._compute_step word ∧ m._compute_step word ≤ m.table_size - 1 ∧
    m2._compute_hash word = m._compute_hash word ∧
    m2._compute_step word = m._compute_step word := by
  refine ⟨rfl, rfl, Nat.le_add_right 1 _, ?_, ?_, ?_⟩
  · have h1 : (sha256Nat word / m.table_size) % (m.table_size - 1) < m.table_size - 1 :=
      Nat.mod_lt _ (by omega)
    unfold HashMapper._compute_step
    omega
  · unfold HashMapper._compute_hash
    rw [hsame]
  · unfold HashMapper._compute_step
    rw [hsame]

/-- Witness for C6 at capacity 5, key `"a"`, and a second mapper state with
the same capacity but different contents. -/
theorem claim_C6_witness :
    2 ≤ (HashMapper.new 5).table_size ∧
    (((HashMapper.new 5).insert "b").1).table_size = (HashMapper.new 5).table_size ∧
    ((HashMapper.new 5)._compute_hash "a" = sha256Nat "a" % (HashMapper.new 5).table_size ∧
     (HashMapper.new 5)._compute_step "a"
        = 1 + (sha256Nat "a" / (HashMapper.new 5).table_size)
            % ((HashMapper.new 5).table_size - 1) ∧
     1 ≤ (HashMapper.new 5)._compute_step "a" ∧
     (HashMapper.new 5)._compute_step "a" ≤ (HashMapper.new 5).table_size - 1 ∧
     (((HashMapper.new 5).insert "b").1)._compute_hash "a"
        = (HashMapper.new 5)._compute_hash "a" ∧
     (((HashMapper.new 5).insert "b").1)._compute_step "a"
        = (HashMapper.new 5)._compute_step "a") :=
  ⟨by decide, by decide,
   claim_C6 (HashMapper.new 5) (((HashMapper.new 5).insert "b").1) "a"
     (by decide) (by decide)⟩

/-- C8: insert is idempotent — a key already present makes `insert` a no-op
returning without error, and inserting a key twice leaves the same slot
assignment as inserting it once. -/
theorem claim_C8 (m : HashMapper) (w : String) :
    ((m.get_index w).isSome = true → m.insert w = (m, true)) ∧
    ((m.insert w).1.insert w).1.get_index w = (m.insert w).1.get_index w := by
  constructor
  · intro h
    exact insert_of_present m w h
  · cases hins : m.insert w with
    | mk m1 b =>
      cases b with
      | true =>
        have hpres : (m1.get_index w).isSome = true := by
          have := insert_present_after m w (by rw [hins])
          rw [hins] at this
          exact this
        simp only
        rw [insert_of_present m1 w hpres]
      | false =>
        have hstate : m1 = m := by
          have := insert_fail_state m w (by rw [hins])
          rw [hins] at this
          exact this
        subst hstate
        simp only
        rw [hins]

/-- Witness for C8: a state in which `"a"` is present; re-inserting is a
no-op and the slot of `"a"` is unchanged. -/
theorem claim_C8_witness :
    ((((HashMapper.new 5).insert "a").1).get_index "a").isSome = true ∧
    (((HashMapper.new 5).insert "a").1).insert "a" = (((HashMapper.new 5).insert "a").1, true) ∧
    (((((HashMapper.new 5).insert "a").1).insert "a").1.insert "a").1.get_index "a"
      = ((((HashMapper.new 5).insert "a").1).insert "a").1.get_index "a" :=
  ⟨by decide,
   (claim_C8 ((HashMapper.new 5).insert "a").1 "a").1 (by decide),
   (claim_C8 ((HashMapper.new 5).insert "a").1 "a").2⟩

/-- C9 counterexample: the constructor performs no validation, so capacities
below 2 are accepted: `new 1` and `new 0` succeed, returning ordinary empty
tables instead of failing with `InvalidConfig`. -/
theorem claim_C9_counterexample :
    HashMapper.new 1
      = { table_size := 1, table := [none], word_to_index := [], index_to_word := [] } ∧
    HashMapper.new 0
      = { table_size := 0, table := [], word_to_index := [], index_to_word := [] } :=
  ⟨rfl, rfl⟩

/-- C9 amended: construction never fails; for every capacity (validated or
not) it returns a table of `capacity` empty slots with empty dictionaries. -/
theorem claim_C9_amended (n : Nat) :
    (HashMapper.new n).table_size = n ∧
    (HashMapper.new n).table.length = n ∧
    (∀ i, i < n → (HashMapper.new n).table[i]? = some none) ∧
    (HashMapper.new n).word_to_index = [] ∧
    (HashMapper.new n).index_to_word = [] := by
  refine ⟨rfl, by simp [HashMapper.new], ?_, rfl, rfl⟩
  intro i hi
  simp [HashMapper.new, List.getElem?_replicate, hi]

/-- Witness for the amended C9 at capacity 3. -/
theorem claim_C9_amended_witness :
    (1 : Nat) < 3 ∧ (HashMapper.new 3).table[1]? = some none :=
  ⟨by decide, (claim_C9_amended 3).2.2.1 1 (by decide)⟩

/-- C1: in every reachable state the forward dictionary has no duplicate keys
(no key occupies two slots) and distinct inserted keys always occupy distinct
slots (no slot holds two keys); every operation preserves these invariants. -/
theorem claim_C1 (m : HashMapper) (hreach : Reachable m) :
    (m.word_to_index.map Prod.fst).Nodup ∧
    ∀ k1 k2 i1 i2, k1 ≠ k2 → m.get_index k1 = some i1 → m.get_index k2 = some i2 →
      i1 ≠ i2 := by
  have hInv := inv_of_reachable m hreach
  refine ⟨hInv.keys_nodup, ?_⟩
  intro k1 k2 i1 i2 hne h1 h2 heq
  subst heq
  have e1 := (hInv.wi_iff k1 i1).mp h1
  have e2 := (hInv.wi_iff k2 i1).mp h2
  rw [e1] at e2
  exact hne (Option.some.inj (Option.some.inj e2))

/-- Witness for C1: a table of capacity 5 holding `"a"` and `"b"`, whose
slots 4 and 0 are distinct. -/
theorem claim_C1_witness :
    Reachable ((((HashMapper.new 5).insert "a").1.insert "b").1) ∧
    "a" ≠ "b" ∧
    ((((HashMapper.new 5).insert "a").1.insert "b").1).get_index "a" = some 4 ∧
    ((((HashMapper.new 5).insert "a").1.insert "b").1).get_index "b" = some 0 ∧
    (4 : Nat) ≠ 0 :=
  ⟨Reachable.step _ "b" (Reachable.step _ "a" (Reachable.new 5 (by decide))),
   by decide, by decide, by decide,
   (claim_C1 ((((HashMapper.new 5).insert "a").1.insert "b").1)
       (Reachable.step _ "b" (Reachable.step _ "a" (Reachable.new 5 (by decide))))).2
     "a" "b" 4 0 (by decide) (by decide) (by decide)⟩

/-- C4: in every reachable state the forward dictionary and the slot array
agree (`KeyIndex[k] = i` iff slot `i` holds `k`), and looking up the word at
an inserted key's slot returns that key. -/
theorem claim_C4 (m : HashMapper) (hreach : Reachable m) :
    (∀ k i, m.get_index k = some i ↔ m.table[i]? = some (some k)) ∧
    (∀ k i, m.get_index k = some i → m.get_word i = some k) := by
  have hInv := inv_of_reachable m hreach
  refine ⟨hInv.wi_iff, ?_⟩
  intro k i h
  exact (hInv.iw_iff i k).mpr ((hInv.wi_iff k i).mp h)

/-- Witness for C4: round-trip through slot 4 for `"a"` in a capacity-5
table holding `"a"` and `"b"`. -/
theorem claim_C4_witness :
    Reachable ((((HashMapper.new 5).insert "a").1.insert "b").1) ∧
    ((((HashMapper.new 5).insert "a").1.insert "b").1).get_index "a" = some 4 ∧
    ((((HashMapper.new 5).insert "a").1.insert "b").1).get_word 4 = some "a" :=
  ⟨Reachable.step _ "b" (Reachable.step _ "a" (Reachable.new 5 (by decide))),
   by decide,
   (claim_C4 ((((HashMapper.new 5).insert "a").1.insert "b").1)
       (Reachable.step _ "b" (Reachable.step _ "a" (Reachable.new 5 (by decide))))).2
     "a" 4 (by decide)⟩

/-- C5: a successful insertion of a fresh key places it at the first empty
slot of the unit-stride sequence from `_compute_hash` (every earlier slot of
that sequence is occupied); the insertion path never consults
`_compute_step`, and this characterisation mentions only `_compute_hash`. -/
theorem claim_C5 (m : HashMapper) (w : String) (hreach : Reachable m)
    (hfresh : m.get_index w = none) (hsucc : (m.insert w).2 = true) :
    ∃ p j, p < m.table_size ∧ j = (m._compute_hash w + p) % m.table_size ∧
      m.table.getD j none = none ∧
      (∀ q, q < p → m.table.getD ((m._compute_hash w + q) % m.table_size) none ≠ none) ∧
      (m.insert w).1.get_index w = some j ∧
      (m.insert w).1.table[j]? = some (some w) := by
  have hInv := inv_of_reachable m hreach
  have hp : ¬ (dictGet m.word_to_index w).isSome = true := by
    have hfr : dictGet m.word_to_index w = none := hfresh
    rw [hfr]
    simp
  cases hpi : probeIndex m.table m.table_size (m._compute_hash w) with
  | none =>
    exfalso
    rw [insert_of_probe_none m w hp hpi] at hsucc
    exact Bool.noConfusion hsucc
  | some j =>
    obtain ⟨hempty, p, hple, hpj, hfirst⟩ := probeIndex_some_facts _ _ _ _ hpi
    have hjlt : j < m.table_size := by
      rw [hpj]
      exact Nat.mod_lt _ hInv.size_pos
    have hjlen : j < m.table.length := by
      rw [hInv.len_eq]
      exact hjlt
    refine ⟨p, j, by omega, hpj, hempty, hfirst, ?_, ?_⟩
    · rw [insert_of_probe_some m w j hp hpi]
      exact dictGet_set_self _ _ _
    · rw [insert_of_probe_some m w j hp hpi]
      exact List.getElem?_set_self hjlen

/-- Witness for C5: inserting `"a"` into a fresh capacity-5 table succeeds
and the characterisation applies. -/
theorem claim_C5_witness :
    Reachable (HashMapper.new 5) ∧
    (HashMapper.new 5).get_index "a" = none ∧
    ((HashMapper.new 5).insert "a").2 = true ∧
    (∃ p j, p < (HashMapper.new 5).table_size ∧
      j = ((HashMapper.new 5)._compute_hash "a" + p) % (HashMapper.new 5).table_size ∧
      (HashMapper.new 5).table.getD j none = none ∧
      (∀ q, q < p →
        (HashMapper.new 5).table.getD
          (((HashMapper.new 5)._compute_hash "a" + q) % (HashMapper.new 5).table_size)
          none ≠ none) ∧
      ((HashMapper.new 5).insert "a").1.get_index "a" = some j ∧
      ((HashMapper.new 5).insert "a").1.table[j]? = some (some "a")) :=
  ⟨Reachable.new 5 (by decide), by decide, by decide,
   claim_C5 (HashMapper.new 5) "a" (Reachable.new 5 (by decide)) (by decide) (by decide)⟩

/-- C3: filling a fresh table of capacity `N ≥ 2` with `N` distinct keys
succeeds with no premature failure, and one further distinct key fails (with
the state unchanged); moreover for any reachable state and fresh key, insert
fails exactly when every slot is occupied. -/
theorem claim_C3 :
    (∀ (N : Nat) (ks : List String) (k2 : String), 2 ≤ N → ks.Nodup → ks.length = N →
      k2 ∉ ks →
      ∃ m2, (HashMapper.new N).insert_words ks = (m2, true) ∧ m2.insert k2 = (m2, false)) ∧
    (∀ (m : HashMapper) (w : String), Reachable m → m.get_index w = none →
      ((m.insert w).2 = false ↔ ∀ x ∈ m.table, x.isSome = true)) := by
  constructor
  · intro N ks k2 hN hnodup hlen hk2
    have hInv0 : MapperInv (HashMapper.new N) := inv_new N (by omega)
    have hfresh0 : ∀ k ∈ ks, (HashMapper.new N).get_index k = none := fun k _ => rfl
    have h0 : occ (HashMapper.new N).table = 0 := occ_replicate_none N
    have hocc0 : occ (HashMapper.new N).table + ks.length ≤ (HashMapper.new N).table_size := by
      rw [h0, hlen]
      exact Nat.le_of_eq (Nat.zero_add N)
    obtain ⟨m2, hrun, hInv2, hocc2, hsize2⟩ := insert_words_fill ks (HashMapper.new N)
      hInv0 hnodup hfresh0 hocc0
    refine ⟨m2, hrun, ?_⟩
    have hfresh2 : dictGet m2.word_to_index k2 = none := by
      have hni := insert_words_get_index_notmem ks (HashMapper.new N) k2 hk2
      rw [hrun] at hni
      exact hni
    have e1 : occ m2.table = N := by
      rw [hocc2, h0]
      omega
    have e2 : m2.table.length = N := by
      rw [hInv2.len_eq, hsize2]
      rfl
    have e3 : occ m2.table = m2.table.length := by
      rw [e1, e2]
    have hfull : ∀ x ∈ m2.table, x.isSome = true :=
      fun x hx => List.countP_eq_length.mp e3 x hx
    exact insert_fail_of_full m2 k2 hInv2.size_pos hInv2.len_eq hfresh2 hfull
  · intro m w hreach hfresh
    exact insert_fail_iff_full m w (inv_of_reachable m hreach) hfresh

/-- Witness for C3: capacity 2 with keys `"a"`, `"b"` fills exactly, `"c"`
then fails, and the fail-iff-full equivalence at the fresh table. -/
theorem claim_C3_witness :
    (2 ≤ 2 ∧ (["a", "b"] : List String).Nodup ∧ (["a", "b"] : List String).length = 2 ∧
      "c" ∉ (["a", "b"] : List String)) ∧
    (∃ m2, (HashMapper.new 2).insert_words ["a", "b"] = (m2, true) ∧
      m2.insert "c" = (m2, false)) ∧
    (Reachable (HashMapper.new 2) ∧ (HashMapper.new 2).get_index "a" = none ∧
      (((HashMapper.new 2).insert "a").2 = false ↔
        ∀ x ∈ (HashMapper.new 2).table, x.isSome = true)) :=
  ⟨⟨by decide, by decide, by decide, by decide⟩,
   claim_C3.1 2 ["a", "b"] "c" (by decide) (by decide) (by decide) (by decide),
   ⟨Reachable.new 2 (by decide), by decide,
    claim_C3.2 (HashMapper.new 2) "a" (Reachable.new 2 (by decide)) (by decide)⟩⟩

/-- C10: insertion is atomic on failure — with the table full and the key
fresh, `insert` fails returning the state exactly as it was; and a failing
`insert_words` run decomposes as a successful prefix (whose keys are all
present in the final state) followed by the failing key, with the final
state equal to the state after the prefix. -/
theorem claim_C10 (m : HashMapper) (w : String) :
    (Reachable m → m.get_index w = none → (∀ x ∈ m.table, x.isSome = true) →
      m.insert w = (m, false)) ∧
    (∀ ws m2, m.insert_words ws = (m2, false) →
      ∃ pre w2 post, ws = pre ++ w2 :: post ∧
        m.insert_words pre = (m2, true) ∧ m2.insert w2 = (m2, false) ∧
        ∀ k, k ∈ pre → (m2.get_index k).isSome = true) := by
  constructor
  · intro hreach hfresh hfull
    have hInv := inv_of_reachable m hreach
    exact insert_fail_of_full m w hInv.size_pos hInv.len_eq hfresh hfull
  · intro ws m2 h
    exact insert_words_fail_decomp ws m m2 h

/-- Witness for C10: a full capacity-2 table rejects `"c"` unchanged, and a
failing three-word batch decomposes into the successful two-word prefix plus
the failing word. -/
theorem claim_C10_witness :
    Reachable ((((HashMapper.new 2).insert "a").1.insert "b").1) ∧
    ((((HashMapper.new 2).insert "a").1.insert "b").1).get_index "c" = none ∧
    (∀ x ∈ ((((HashMapper.new 2).insert "a").1.insert "b").1).table, x.isSome = true) ∧
    ((((HashMapper.new 2).insert "a").1.insert "b").1).insert "c"
      = ((((HashMapper.new 2).insert "a").1.insert "b").1, false) ∧
    (HashMapper.new 2).insert_words ["a", "b", "c"]
      = ((((HashMapper.new 2).insert "a").1.insert "b").1, false) ∧
    (∃ pre w2 post, (["a", "b", "c"] : List String) = pre ++ w2 :: post ∧
      (HashMapper.new 2).insert_words pre
        = ((((HashMapper.new 2).insert "a").1.insert "b").1, true) ∧
      ((((HashMapper.new 2).insert "a").1.insert "b").1).insert w2
        = ((((HashMapper.new 2).insert "a").1.insert "b").1, false) ∧
      ∀ k, k ∈ pre →
        (((((HashMapper.new 2).insert "a").1.insert "b").1).get_index k).isSome = true) :=
  ⟨Reachable.step _ "b" (Reachable.step _ "a" (Reachable.new 2 (by decide))),
   by decide, by decide,
   (claim_C10 ((((HashMapper.new 2).insert "a").1.insert "b").1) "c").1
     (Reachable.step _ "b" (Reachable.step _ "a" (Reachable.new 2 (by decide))))
     (by decide) (by decide),
   by decide,
   (claim_C10 (HashMapper.new 2) "c").2 ["a", "b", "c"]
     ((((HashMapper.new 2).insert "a").1.insert "b").1) (by decide)⟩

/-- C2: the different-word probe reports `skipped` (NotFound) for a key never
inserted, performing no probing (the operation is read-only by construction);
for a present key it walks from `(hash + step) mod capacity` with stride
`step`, a `found` result being the first slot on the walk holding a word
other than the query, and `noDifferent` meaning every slot on the strided
cycle is empty or holds the query word. -/
theorem claim_C2 (m : HashMapper) (word : String) (hsize : 0 < m.table_size) :
    (m.get_index word = none → find_different m word = FindResult.skipped) ∧
    ((m.get_index word).isSome = true →
      (∀ w2 j, find_different m word = FindResult.found w2 j →
        m.table.getD j none = some w2 ∧ w2 ≠ word ∧
        ∃ r, j = ((m._compute_hash word + m._compute_step word) % m.table_size
                + r * m._compute_step word) % m.table_size ∧
          ∀ q, q < r → dull m.table word
            (((m._compute_hash word + m._compute_step word) % m.table_size
              + q * m._compute_step word) % m.table_size)) ∧
      (find_different m word = FindResult.noDifferent →
        ∀ q, dull m.table word
          (((m._compute_hash word + m._compute_step word) % m.table_size
            + q * m._compute_step word) % m.table_size))) := by
  constructor
  · intro h
    exact find_different_skipped m word h
  · intro hpres
    have heq : find_different m word =
        findAux m.table m.table_size (m._compute_step word)
          ((m._compute_hash word + m._compute_step word) % m.table_size) word
          ((m._compute_hash word + m._compute_step word) % m.table_size) m.table_size :=
      find_differentFuel_present m word m.table_size hpres
    have hstart : (m._compute_hash word + m._compute_step word) % m.table_size
        < m.table_size := Nat.mod_lt _ hsize
    obtain ⟨hA, hB⟩ := findAux_start_cases m.table m.table_size (m._compute_step word)
      ((m._compute_hash word + m._compute_step word) % m.table_size) word hsize hstart
      m.table_size (by omega)
    constructor
    · intro w2 j h
      rw [heq] at h
      exact hA w2 j h
    · intro h
      rw [heq] at h
      exact hB h

/-- Witness for C2: a key never inserted is reported `skipped`. -/
theorem claim_C2_witness :
    0 < (((HashMapper.new 5).insert "x").1).table_size ∧
    (((HashMapper.new 5).insert "x").1).get_index "zzz" = none ∧
    find_different (((HashMapper.new 5).insert "x").1) "zzz" = FindResult.skipped :=
  ⟨by decide, by decide,
   (claim_C2 (((HashMapper.new 5).insert "x").1) "zzz" (by decide)).1 (by decide)⟩

/-- C7: the different-word probe terminates within `capacity` iterations: the
strided cursor provably returns to its starting position after at most
`capacity` strides, so running the loop with any fuel of at least
`table_size` gives the same result as `find_different` itself. -/
theorem claim_C7 (m : HashMapper) (word : String) (hsize : 0 < m.table_size)
    (hpres : (m.get_index word).isSome = true) :
    (∃ tt, 1 ≤ tt ∧ tt ≤ m.table_size ∧
      ((m._compute_hash word + m._compute_step word) % m.table_size
          + tt * m._compute_step word) % m.table_size
        = (m._compute_hash word + m._compute_step word) % m.table_size) ∧
    (∀ fuel, m.table_size ≤ fuel →
      find_differentFuel m word fuel = find_different m word) := by
  have hstart : (m._compute_hash word + m._compute_step word) % m.table_size
      < m.table_size := Nat.mod_lt _ hsize
  constructor
  · exact cycle_exists m.table_size (m._compute_step word) _ hsize hstart
  · intro fuel hfuel
    have h1 := find_differentFuel_present m word fuel hpres
    have h2 : find_different m word =
        findAux m.table m.table_size (m._compute_step word)
          ((m._compute_hash word + m._compute_step word) % m.table_size) word
          ((m._compute_hash word + m._compute_step word) % m.table_size) m.table_size :=
      find_differentFuel_present m word m.table_size hpres
    rw [h1, h2]
    exact findAux_fuel_indep m.table m.table_size (m._compute_step word) _ word hsize hstart
      fuel m.table_size (by omega) (by omega)

/-- Witness for C7: probing a present key with surplus fuel (7 for a
capacity-5 table) gives the same result as the bounded loop. -/
theorem claim_C7_witness :
    0 < (((HashMapper.new 5).insert "x").1).table_size ∧
    ((((HashMapper.new 5).insert "x").1).get_index "x").isSome = true ∧
    (((HashMapper.new 5).insert "x").1).table_size ≤ 7 ∧
    find_differentFuel (((HashMapper.new 5).insert "x").1) "x" 7
      = find_different (((HashMapper.new 5).insert "x").1) "x" :=
  ⟨by decide, by decide, by decide,
   (claim_C7 (((HashMapper.new 5).insert "x").1) "x" (by decide) (by decide)).2 7 (by decide)⟩
